import Mathlib

/-! # Formal model of the dotfiles bootstrapper (`tasks.py`)

A shallow embedding of the filesystem primitives (`backup`, `symlink`,
`append_unique_line`), the platform detector (`os_arch`), the declarative
link reconciler (`link_configs`) and the tool-installer dispatch
(`install_fd`, `install_neovim`) of the repository's `tasks.py`.

The filesystem is modelled as a partial map from absolute paths (lists of
name components) to nodes (regular file with content, directory, or
symbolic link storing its raw target).  Python library calls are modelled
as follows:

* `Path.mkdir(parents=True, exist_ok=True)` walks all prefixes of the
  path and creates a directory node wherever no entry exists; it never
  overwrites an existing entry.
* `Path.resolve()` follows the chain of symlinks found at the whole path,
  up to the operating system's nesting limit of 40 links; resolution of
  symlinks occurring at strict ancestor directories is not modelled.
* `Path.exists()` follows symlinks (a broken symlink does not exist);
  `Path.is_symlink()` and `os.readlink` inspect the path without
  following it.
* `shutil.move(src, dst)` re-roots every entry under `src` to `dst`.
* `str.strip()` / `str.splitlines()` are modelled character-exactly for
  the whitespace characters space, tab, carriage return and newline, with
  `\n` as the sole line separator.
-/

namespace Tasks

/-- A filesystem path, as its list of name components (absolute). -/
abbrev Path := List String

/-- A filesystem node: regular file with text content, directory, or
symbolic link storing the raw (unresolved) target it was created with. -/
inductive Node
  | file (content : String)
  | dir
  | link (target : Path)
deriving DecidableEq

/-- Filesystem state: a partial map from paths to nodes. -/
abbrev FS := Path → Option Node

/-- Overwrite the entry at `p` with node `n`. -/
def fsSet (fs : FS) (p : Path) (n : Node) : FS :=
  fun q => if q = p then some n else fs q

/-- One step of `mkdir(exist_ok=True)`: create a directory at `p` if no
entry is present there; never overwrite. -/
def ensureDirAt (fs : FS) (p : Path) : FS :=
  if fs p = none then fsSet fs p Node.dir else fs

/-- Walk the components `l` starting from the already-ensured base `base`,
ensuring a directory entry at every intermediate path. -/
def mkdirWalk (fs : FS) (base : Path) : List String → FS
  | [] => ensureDirAt fs base
  | a :: rest => mkdirWalk (ensureDirAt fs base) (base ++ [a]) rest

/-- `p.mkdir(parents=True, exist_ok=True)`: ensure a directory entry at
`p` and at every ancestor of `p`. -/
def mkdirParents (fs : FS) (p : Path) : FS := mkdirWalk fs [] p

/-- `Path.parent`: the path with its last component removed. -/
def parent (p : Path) : Path := p.dropLast

/-- `Path.name`: the last component of a path (`""` for the root). -/
def lastName (p : Path) : String := p.getLastD ""

/-- `Path.home()`: the user's home directory, a fixed location in this
model. -/
def HOME : Path := ["home", "user"]

/-- `BACKUP_ROOT = HOME / ".dotfiles_backup"`. -/
def BACKUP_ROOT : Path := HOME ++ [".dotfiles_backup"]

/-- `LOCAL_BIN = HOME / ".local" / "bin"`. -/
def LOCAL_BIN : Path := HOME ++ [".local", "bin"]

/-- `REPO_ROOT`: the checkout of the repository, a fixed location in this
model. -/
def REPO_ROOT : Path := ["repo"]

/-- `CONFIG_DIR = REPO_ROOT / "configs"`. -/
def CONFIG_DIR : Path := REPO_ROOT ++ ["configs"]

/-- `Path.cwd()`: the working directory of the invoking process. -/
def CWD : Path := ["cwd"]

/-- Follow the chain of symlinks at `p`, consuming one unit of fuel per
link; stops at the first non-link entry (or absent entry). -/
def resolveFuel (fs : FS) : Nat → Path → Path
  | 0, p => p
  | Nat.succ n, p =>
    match fs p with
    | some (Node.link t) => resolveFuel fs n t
    | _ => p

/-- `Path.resolve()`: follow the symlink chain at the path, bounded by the
OS limit of 40 nested links. -/
def resolve (fs : FS) (p : Path) : Path := resolveFuel fs 40 p

/-- `Path.is_symlink()`: the entry at `p` itself (lstat, no following) is
a symlink. -/
def isSymlink (fs : FS) (p : Path) : Bool :=
  match fs p with
  | some (Node.link _) => true
  | _ => false

/-- `Path.exists()`: the path, after following symlinks, refers to an
existing node.  A broken symlink does not exist in this sense. -/
def pathExists (fs : FS) (p : Path) : Bool :=
  (fs (resolve fs p)).isSome

/-- `os.readlink(p)`: the raw target stored in the symlink at `p`
(junk value `[]` if `p` is not a symlink; all uses are guarded). -/
def readlink (fs : FS) (p : Path) : Path :=
  match fs p with
  | some (Node.link t) => t
  | _ => []

/-- Boolean test that the first list is a prefix of the second. -/
def isPre {α : Type} [DecidableEq α] : List α → List α → Bool
  | [], _ => true
  | _ :: _, [] => false
  | a :: as, b :: bs => if a = b then isPre as bs else false

/-- `shutil.move(src, dst)`: every entry at `src ++ r` is re-rooted to
`dst ++ r`; all other entries are untouched. -/
def fsMove (fs : FS) (src dst : Path) : FS := fun p =>
  if isPre dst p then fs (src ++ p.drop dst.length)
  else if isPre src p then none
  else fs p

/-- `backup(path)` from `tasks.py`: if the path exists (following links)
or is a symlink (so that broken symlinks count), move it to
`BACKUP_ROOT / (name ++ "." ++ ts)` after ensuring `BACKUP_ROOT` exists,
returning the backup location; otherwise do nothing and return `none`.
The timestamp `ts` is passed in explicitly. -/
def backup (fs : FS) (ts : String) (path : Path) : FS × Option Path :=
  if pathExists fs path = false ∧ isSymlink fs path = false then (fs, none)
  else
    (fsMove (mkdirParents fs BACKUP_ROOT) path
        (BACKUP_ROOT ++ [lastName path ++ "." ++ ts]),
     some (BACKUP_ROOT ++ [lastName path ++ "." ++ ts]))

/-- The body of `symlink(src, dest)` after the initial
`dest.parent.mkdir(parents=True, exist_ok=True)` call: if `dest` is a
symlink or exists, and it is a symlink whose resolved raw target equals
the resolved `src`, do nothing; otherwise back `dest` up (when present)
and create the symlink.  The second component is the backup location, if
a backup was made. -/
def symlinkAfterDirs (fs1 : FS) (src dest : Path) (ts : String) :
    FS × Option Path :=
  if isSymlink fs1 dest = true ∨ pathExists fs1 dest = true then
    if isSymlink fs1 dest = true ∧
        resolve fs1 (readlink fs1 dest) = resolve fs1 src then
      (fs1, none)
    else
      (fsSet (backup fs1 ts dest).1 dest (Node.link src),
       (backup fs1 ts dest).2)
  else (fsSet fs1 dest (Node.link src), none)

/-- `symlink(src, dest)` from `tasks.py`: create parent directories of
`dest`, then dispatch on the state of `dest`. -/
def symlink (fs : FS) (src dest : Path) (ts : String) : FS × Option Path :=
  symlinkAfterDirs (mkdirParents fs (parent dest)) src dest ts

/-- Python whitespace for `str.strip()`: space, tab, carriage return,
newline. -/
def isWs (c : Char) : Bool := c = ' ' ∨ c = '\t' ∨ c = '\r' ∨ c = '\n'

/-- `str.strip()` on a character list: drop whitespace from both ends. -/
def trimChars (l : List Char) : List Char :=
  ((l.dropWhile isWs).reverse.dropWhile isWs).reverse

/-- `str.strip()`. -/
def strTrim (s : String) : String := String.mk (trimChars s.data)

/-- Accumulator-based splitter behind `splitlines`: `cur` holds the
current line, reversed. -/
def slGo : List Char → List Char → List (List Char)
  | cur, [] => if cur = [] then [] else [cur.reverse]
  | cur, c :: rest =>
    if c = '\n' then cur.reverse :: slGo [] rest else slGo (c :: cur) rest

/-- `str.splitlines()` with `\n` as the line separator: no entry is
produced for a trailing newline. -/
def splitlines (s : String) : List String :=
  (slGo [] s.data).map (fun cs => String.mk cs)

/-- The node at `p`, read as file text: content of a regular file,
`""` otherwise.  Used to state theorems about file contents. -/
def fileTextD (fs : FS) (p : Path) : String :=
  match fs p with
  | some (Node.file c) => c
  | _ => ""

/-- `Path.read_text()` (with a default): the content of the regular file
the path resolves to, `""` otherwise. -/
def readTextD (fs : FS) (p : Path) : String :=
  match fs (resolve fs p) with
  | some (Node.file c) => c
  | _ => ""

/-- `open(p, "a").write(s)`: append `s` to the regular file the path
resolves to, creating it (with the appended text) if absent. -/
def fsAppendWrite (fs : FS) (p : Path) (s : String) : FS :=
  fsSet fs (resolve fs p)
    (Node.file
      ((match fs (resolve fs p) with
        | some (Node.file c) => c
        | _ => "") ++ s))

/-- The body of `append_unique_line(file, line)` after the initial
`file.parent.mkdir(parents=True, exist_ok=True)` call: read the current
content (missing file read as `""`), and append `line ++ "\n"` exactly
when no whitespace-trimmed existing line equals the trimmed `line`. -/
def aulAfterDirs (fs1 : FS) (file : Path) (line : String) : FS :=
  if strTrim line ∉
      (splitlines (if pathExists fs1 file = true then readTextD fs1 file
                   else "")).map strTrim then
    fsAppendWrite fs1 file (line ++ "\n")
  else fs1

/-- `append_unique_line(file, line)` from `tasks.py`. -/
def append_unique_line (fs : FS) (file : Path) (line : String) : FS :=
  aulAfterDirs (mkdirParents fs (parent file)) file line

/-- The entry at `p` is compatible with being read and appended as a
text file: absent, or a regular file. -/
def goodFileAt (fs : FS) (p : Path) : Bool :=
  match fs p with
  | none => true
  | some (Node.file _) => true
  | _ => false

/-- Number of occurrences of `t` in a list of strings. -/
def countStr (t : String) : List String → Nat
  | [] => 0
  | x :: xs => (if x = t then 1 else 0) + countStr t xs

/-- Number of logical (whitespace-trimmed) lines of `s` equal to `t`. -/
def countTrimmed (s t : String) : Nat :=
  countStr t ((splitlines s).map strTrim)

/-- `str.lower()`: lower-case each character. -/
def strToLower (s : String) : String := String.mk (s.data.map Char.toLower)

/-- `os_arch()` from `tasks.py`, as a function of the host's raw
`platform.system()` and `platform.machine()` strings: lower-case the
system name, and fold the architecture aliases
`aarch64`/`arm64 → arm64`, `x86_64`/`amd64 → x86_64`. -/
def os_arch (sysRaw machineRaw : String) : String × String :=
  (strToLower sysRaw,
   if strToLower machineRaw = "aarch64" ∨ strToLower machineRaw = "arm64"
   then "arm64"
   else if strToLower machineRaw = "x86_64" ∨
       strToLower machineRaw = "amd64" then "x86_64"
   else strToLower machineRaw)

/-- The closed support matrix of canonical platform pairs named by the
specification. -/
def PLATFORM_MATRIX : List (String × String) :=
  [("darwin", "x86_64"), ("darwin", "arm64"),
   ("linux", "x86_64"), ("linux", "arm64")]

/-- One externally visible action of a tool installer. -/
inductive Step
  | brew (pkg : String)
  | download (url : String) (dest : Path)
  | extractTar (tar : Path) (dir : Path)
  | moveEntry (src dst : Path)
  | removeTree (p : Path)
  | removeFile (p : Path)
  | chmodExec (p : Path)
  | mkLink (src dst : Path)
deriving DecidableEq

/-- `FD_VERSION` from `tasks.py`. -/
def FD_VERSION : String := "v10.3.0"

/-- `NVIM_LINUX_X64` from `tasks.py`. -/
def NVIM_LINUX_X64 : String :=
  "https://github.com/neovim/neovim-releases/releases/download/v0.11.3/nvim-linux-x86_64.appimage"

/-- `NVIM_MAC_ARM_TAR` from `tasks.py`. -/
def NVIM_MAC_ARM_TAR : String :=
  "https://github.com/neovim/neovim/releases/latest/download/nvim-macos-arm64.tar.gz"

/-- The fd release tarball name for linux/x86_64. -/
def fdTarLinux : String :=
  "fd-" ++ FD_VERSION ++ "-x86_64-unknown-linux-gnu.tar.gz"

/-- The directory inside the linux fd tarball. -/
def fdDirLinux : String := "fd-" ++ FD_VERSION ++ "-x86_64-unknown-linux-gnu"

/-- The fd release tarball name for darwin/arm64. -/
def fdTarMac : String := "fd-" ++ FD_VERSION ++ "-aarch64-apple-darwin.tar.gz"

/-- The directory inside the darwin fd tarball. -/
def fdDirMac : String := "fd-" ++ FD_VERSION ++ "-aarch64-apple-darwin"

/-- `install_fd` from `tasks.py`, as the list of external actions it
performs, keyed by the detected platform pair and the presence of brew.
`Except.error` models a raised `RuntimeError`: no action is performed. -/
def install_fd (sys arch : String) (hasBrew : Bool) :
    Except String (List Step) :=
  if sys = "darwin" ∧ hasBrew = true then Except.ok [Step.brew "fd"]
  else if sys = "linux" then
    if arch = "x86_64" then
      Except.ok
        [Step.download
            ("https://github.com/sharkdp/fd/releases/download/" ++
              FD_VERSION ++ "/" ++ fdTarLinux)
            (CWD ++ [fdTarLinux]),
         Step.extractTar (CWD ++ [fdTarLinux]) CWD,
         Step.moveEntry (CWD ++ [fdDirLinux, "fd"]) (LOCAL_BIN ++ ["fd"]),
         Step.removeTree (CWD ++ [fdDirLinux]),
         Step.removeFile (CWD ++ [fdTarLinux])]
    else Except.error ("Unsupported OS: " ++ sys)
  else if sys = "darwin" then
    if arch = "arm64" then
      Except.ok
        [Step.download
            ("https://github.com/sharkdp/fd/releases/download/" ++
              FD_VERSION ++ "/" ++ fdTarMac)
            (CWD ++ [fdTarMac]),
         Step.extractTar (CWD ++ [fdTarMac]) CWD,
         Step.moveEntry (CWD ++ [fdDirMac, "fd"]) (LOCAL_BIN ++ ["fd"]),
         Step.removeTree (CWD ++ [fdDirMac]),
         Step.removeFile (CWD ++ [fdTarMac])]
    else Except.error ("Unsupported OS: " ++ sys)
  else Except.error ("Unsupported OS: " ++ sys)

/-- The unconditional Neovim state cleanup run after a successful
non-brew install. -/
def nvimCleanup : List Step :=
  [Step.removeTree (HOME ++ [".local", "state", "nvim"]),
   Step.removeTree (HOME ++ [".local", "share", "nvim"])]

/-- `install_neovim` from `tasks.py`, as the list of external actions it
performs.  `treeFound` models whether the glob for the extracted
`nvim-macos*` directory finds a tree with a `bin/nvim` inside, and
`installRootExists` whether `~/.local/nvim` already exists (both are
runtime filesystem observations inside the darwin/arm64 branch).
`Except.error` models a raised `RuntimeError`: no action is performed. -/
def install_neovim (sys arch : String)
    (hasBrew treeFound installRootExists : Bool) :
    Except String (List Step) :=
  if sys = "darwin" ∧ hasBrew = true then Except.ok [Step.brew "neovim"]
  else if sys = "linux" ∧ arch = "x86_64" then
    Except.ok
      ([Step.download NVIM_LINUX_X64 (LOCAL_BIN ++ ["nvim"]),
        Step.chmodExec (LOCAL_BIN ++ ["nvim"])] ++ nvimCleanup)
  else if sys = "darwin" ∧ arch = "arm64" then
    Except.ok
      ([Step.download NVIM_MAC_ARM_TAR (CWD ++ ["nvim-macos-arm64.tar.gz"]),
        Step.extractTar (CWD ++ ["nvim-macos-arm64.tar.gz"]) CWD] ++
       (if treeFound then
          (if installRootExists then
             [Step.removeTree (HOME ++ [".local", "nvim"])]
           else []) ++
          [Step.moveEntry (CWD ++ ["nvim-macos-arm64"])
              (HOME ++ [".local", "nvim"]),
           Step.mkLink (HOME ++ [".local", "nvim", "bin", "nvim"])
              (LOCAL_BIN ++ ["nvim"])]
        else []) ++
       [Step.removeFile (CWD ++ ["nvim-macos-arm64.tar.gz"])] ++
       nvimCleanup)
  else Except.error ("Unsupported combo: " ++ sys ++ " " ++ arch)

/-- Boolean test that `needle` occurs contiguously inside `hay`. -/
def infixCheck {α : Type} [DecidableEq α] (needle : List α) :
    List α → Bool
  | [] => isPre needle []
  | c :: rest => isPre needle (c :: rest) || infixCheck needle rest

/-- Substring test on strings. -/
def strContains (hay needle : String) : Bool :=
  infixCheck needle.data hay.data

/-- The optional `append:` block of a configuration entry
(`append.line` / `append.file`, each possibly missing). -/
structure AppendSpec where
  line : Option String
  file : Option Path
deriving DecidableEq

/-- One entry of `configs/config.yaml`: platform tags, source path
relative to `CONFIG_DIR`, destination path (whose leading `~` component
is expanded), and an optional append block. -/
structure LinkEntry where
  platform : List String
  src : Path
  dst : Path
  append : Option AppendSpec
deriving DecidableEq

/-- `os.path.expanduser`: expand a leading `~` component to `HOME`. -/
def expanduser (p : Path) : Path :=
  match p with
  | "~" :: rest => HOME ++ rest
  | _ => p

/-- The body of the `link_configs` loop for a single entry: if the
detected system is in the entry's lower-cased platform list and its
source exists under `CONFIG_DIR`, create the symlink and (when an
append block with a non-empty line and file is declared) append the
line; otherwise leave the filesystem untouched (the skip is logged). -/
def processEntry (sys ts : String) (fs : FS) (e : LinkEntry) : FS :=
  if sys ∈ e.platform.map strToLower then
    if pathExists fs (CONFIG_DIR ++ e.src) = true then
      match e.append with
      | some ai =>
        match ai.line, ai.file with
        | some l, some fp =>
          if l ≠ "" ∧ fp ≠ [] then
            append_unique_line
              ((symlink fs (CONFIG_DIR ++ e.src) (expanduser e.dst) ts).1)
              (expanduser fp) l
          else (symlink fs (CONFIG_DIR ++ e.src) (expanduser e.dst) ts).1
        | _, _ => (symlink fs (CONFIG_DIR ++ e.src) (expanduser e.dst) ts).1
      | none => (symlink fs (CONFIG_DIR ++ e.src) (expanduser e.dst) ts).1
    else fs
  else fs

/-- `link_configs` from `tasks.py`: fold the per-entry body over the
parsed configuration, in order. -/
def link_configs (sys ts : String) (cfg : List LinkEntry) (fs : FS) : FS :=
  cfg.foldl (processEntry sys ts) fs

/-! Concrete sample states and inputs used to evaluate the theorems on
closed instances. -/

/-- An empty filesystem. -/
def c1Fs : FS := fun _ => none

/-- A sample link source. -/
def c1Src : Path := ["repo", "configs", "vimrc"]

/-- A sample link destination. -/
def c1Dest : Path := ["home", "user", ".vimrc"]

/-- A filesystem holding one regular file with content `"X"` at the
sample destination. -/
def c2Fs : FS :=
  fun p => if p = ["home", "user", ".bashrc"] then some (Node.file "X")
           else none

/-- The destination occupied by a regular file in `c2Fs`. -/
def c2Dest : Path := ["home", "user", ".bashrc"]

/-- A sample link source for the backup-preservation instance. -/
def c2Src : Path := ["repo", "configs", "bashrc"]

/-- A sample link source for the backup-iff instance. -/
def c3Src : Path := ["repo", "configs", "nvim"]

/-- An empty filesystem. -/
def c3Fs : FS := fun _ => none

/-- A sample destination for the backup-iff instance. -/
def c3Dest : Path := ["home", "user", ".config", "nvim"]

/-- An empty filesystem. -/
def c4Fs : FS := fun _ => none

/-- A sample profile file path. -/
def c4File : Path := ["home", "user", ".zshrc"]

/-- A filesystem whose profile file already holds two identical logical
lines `x`. -/
def c4DupFs : FS :=
  fun p => if p = ["home", "user", "rc"] then some (Node.file "x\nx\n")
           else none

/-- The profile file of `c4DupFs`. -/
def c4DupFile : Path := ["home", "user", "rc"]

/-- A filesystem whose profile file holds one line with stray
whitespace. -/
def c5Fs : FS :=
  fun p => if p = ["home", "user", ".profile"] then
             some (Node.file "  alias ll  \n")
           else none

/-- The profile file of `c5Fs`. -/
def c5File : Path := ["home", "user", ".profile"]

/-- An empty filesystem. -/
def c8Fs : FS := fun _ => none

/-- A darwin-only configuration entry. -/
def c8Entry : LinkEntry :=
  { platform := ["darwin"], src := ["vimrc"],
    dst := ["~", ".vimrc"], append := none }

/-- An empty filesystem (so every source is missing). -/
def c9Fs : FS := fun _ => none

/-- A linux-tagged entry whose source does not exist in `c9Fs`. -/
def c9Entry : LinkEntry :=
  { platform := ["linux"], src := ["tmux.conf"],
    dst := ["~", ".tmux.conf"], append := none }

/-- A second entry following `c9Entry` in the configuration. -/
def c9Entry2 : LinkEntry :=
  { platform := ["linux"], src := ["gitconfig"],
    dst := ["~", ".gitconfig"], append := none }

/-- An empty filesystem. -/
def c10Fs : FS := fun _ => none

/-- A sample profile file path with two missing ancestors. -/
def c10File : Path := ["home", "user", ".config", "fish", "config.fish"]

/-! ## Basic lemmas about the filesystem primitives -/

theorem isPre_iff {α : Type} [DecidableEq α] (p q : List α) :
    isPre p q = true ↔ ∃ r, p ++ r = q := by
  induction p generalizing q with
  | nil => simp [isPre]
  | cons a as ih =>
    cases q with
    | nil => simp [isPre]
    | cons b bs =>
      by_cases hab : a = b
      · subst hab
        simp only [isPre, if_pos rfl, List.cons_append, List.cons.injEq,
          true_and]
        exact ih bs
      · simp only [isPre, if_neg hab, List.cons_append, List.cons.injEq]
        constructor
        · intro h; cases h
        · rintro ⟨r, hr, -⟩; exact absurd hr hab

theorem fsSet_self (fs : FS) (p : Path) (n : Node) :
    fsSet fs p n p = some n := by simp [fsSet]

theorem fsSet_of_ne (fs : FS) (p : Path) (n : Node) (q : Path)
    (h : q ≠ p) : fsSet fs p n q = fs q := by simp [fsSet, h]

theorem ensureDirAt_keep (fs : FS) (p q : Path) (v : Node)
    (h : fs q = some v) : ensureDirAt fs p q = some v := by
  unfold ensureDirAt
  by_cases hp : fs p = none
  · rw [if_pos hp]
    by_cases hqp : q = p
    · subst hqp; rw [h] at hp; cases hp
    · rw [fsSet_of_ne fs p Node.dir q hqp]; exact h
  · rw [if_neg hp]; exact h

theorem ensureDirAt_self_isSome (fs : FS) (p : Path) :
    ((ensureDirAt fs p) p).isSome = true := by
  unfold ensureDirAt
  by_cases hp : fs p = none
  · rw [if_pos hp, fsSet_self]; rfl
  · rw [if_neg hp, Option.isSome_iff_ne_none]; exact hp

theorem ensureDirAt_of_ne (fs : FS) (p q : Path) (h : q ≠ p) :
    ensureDirAt fs p q = fs q := by
  unfold ensureDirAt
  by_cases hp : fs p = none
  · rw [if_pos hp, fsSet_of_ne fs p Node.dir q h]
  · rw [if_neg hp]

theorem ensureDirAt_eq_self (fs : FS) (p : Path) (h : fs p ≠ none) :
    ensureDirAt fs p = fs := by
  unfold ensureDirAt; rw [if_neg h]

theorem ensureDirAt_pointwise (fs : FS) (p q : Path) :
    ensureDirAt fs p q = fs q ∨
      (fs q = none ∧ ensureDirAt fs p q = some Node.dir) := by
  by_cases hqp : q = p
  · subst hqp
    by_cases hp : fs q = none
    · right
      refine ⟨hp, ?_⟩
      unfold ensureDirAt
      rw [if_pos hp, fsSet_self]
    · left; rw [ensureDirAt_eq_self fs q hp]
  · left; exact ensureDirAt_of_ne fs p q hqp

theorem mkdirWalk_pointwise (l : List String) (fs : FS) (b q : Path) :
    mkdirWalk fs b l q = fs q ∨
      (fs q = none ∧ mkdirWalk fs b l q = some Node.dir) := by
  induction l generalizing fs b with
  | nil => exact ensureDirAt_pointwise fs b q
  | cons a rest ih =>
    have hstep : mkdirWalk fs b (a :: rest) q
        = mkdirWalk (ensureDirAt fs b) (b ++ [a]) rest q := rfl
    rw [hstep]
    rcases ih (ensureDirAt fs b) (b ++ [a]) with h | ⟨h1, h2⟩
    · rcases ensureDirAt_pointwise fs b q with h' | ⟨h1', h2'⟩
      · left; rw [h, h']
      · right; exact ⟨h1', by rw [h, h2']⟩
    · rcases ensureDirAt_pointwise fs b q with h' | ⟨h1', h2'⟩
      · right
        refine ⟨?_, h2⟩
        rw [← h', h1]
      · rw [h2'] at h1; cases h1

theorem mkdirWalk_isSome (l : List String) (fs : FS) (b q : Path)
    (h : (fs q).isSome = true) : ((mkdirWalk fs b l) q).isSome = true := by
  rcases mkdirWalk_pointwise l fs b q with h' | ⟨h1, _⟩
  · rw [h']; exact h
  · rw [h1] at h; cases h

theorem mkdirWalk_keep (l : List String) (fs : FS) (b q : Path) (v : Node)
    (h : fs q = some v) : mkdirWalk fs b l q = some v := by
  rcases mkdirWalk_pointwise l fs b q with h' | ⟨h1, _⟩
  · rw [h', h]
  · rw [h] at h1; cases h1

theorem mkdirWalk_self_isSome (l : List String) (fs : FS) (b : Path) :
    ((mkdirWalk fs b l) b).isSome = true := by
  cases l with
  | nil => exact ensureDirAt_self_isSome fs b
  | cons a rest =>
    show ((mkdirWalk (ensureDirAt fs b) (b ++ [a]) rest) b).isSome = true
    exact mkdirWalk_isSome rest _ _ b (ensureDirAt_self_isSome fs b)

theorem mkdirWalk_present (l₁ l₂ : List String) (fs : FS) (b : Path) :
    ((mkdirWalk fs b (l₁ ++ l₂)) (b ++ l₁)).isSome = true := by
  induction l₁ generalizing fs b with
  | nil => simpa using mkdirWalk_self_isSome l₂ fs b
  | cons a l₁ ih =>
    show ((mkdirWalk (ensureDirAt fs b) (b ++ [a]) (l₁ ++ l₂))
        (b ++ a :: l₁)).isSome = true
    have hp : b ++ a :: l₁ = (b ++ [a]) ++ l₁ := by simp
    rw [hp]
    exact ih (ensureDirAt fs b) (b ++ [a])

theorem mkdirWalk_eq_self (l : List String) (fs : FS) (b : Path)
    (h : ∀ l₁ l₂, l₁ ++ l₂ = l → fs (b ++ l₁) ≠ none) :
    mkdirWalk fs b l = fs := by
  induction l generalizing fs b with
  | nil =>
    have hb : fs b ≠ none := by simpa using h [] [] rfl
    exact ensureDirAt_eq_self fs b hb
  | cons a rest ih =>
    have hb : fs b ≠ none := by simpa using h [] (a :: rest) rfl
    show mkdirWalk (ensureDirAt fs b) (b ++ [a]) rest = fs
    rw [ensureDirAt_eq_self fs b hb]
    apply ih
    intro l₁ l₂ hl
    have hcons : (a :: l₁) ++ l₂ = a :: rest := by
      rw [List.cons_append, hl]
    have := h (a :: l₁) l₂ hcons
    rw [List.append_assoc]
    exact this

theorem mkdirWalk_untouched (l : List String) (fs : FS) (b q : Path)
    (h : b.length + l.length < q.length) : mkdirWalk fs b l q = fs q := by
  induction l generalizing fs b with
  | nil =>
    have hne : q ≠ b := by
      intro e
      rw [e, List.length_nil] at h
      omega
    exact ensureDirAt_of_ne fs b q hne
  | cons a rest ih =>
    have hne : q ≠ b := by
      intro e
      rw [e, List.length_cons] at h
      omega
    show mkdirWalk (ensureDirAt fs b) (b ++ [a]) rest q = fs q
    rw [ih (ensureDirAt fs b) (b ++ [a])
      (by
        rw [List.length_append, List.length_singleton]
        rw [List.length_cons] at h
        omega)]
    exact ensureDirAt_of_ne fs b q hne

theorem mkdirWalk_idem (l : List String) (fs : FS) (b : Path) :
    mkdirWalk (mkdirWalk fs b l) b l = mkdirWalk fs b l := by
  apply mkdirWalk_eq_self
  intro l₁ l₂ h
  rw [← h, Option.ne_none_iff_isSome]
  exact mkdirWalk_present l₁ l₂ fs b

theorem resolveFuel_succ (fs : FS) (n : Nat) (p : Path) :
    resolveFuel fs (n + 1) p =
      match fs p with
      | some (Node.link t) => resolveFuel fs n t
      | _ => p := rfl

theorem resolveFuel_dirExtend (fs fs' : FS)
    (h : ∀ p, fs' p = fs p ∨ (fs p = none ∧ fs' p = some Node.dir)) :
    ∀ n p, resolveFuel fs' n p = resolveFuel fs n p := by
  intro n
  induction n with
  | zero => intro p; rfl
  | succ n ih =>
    intro p
    rw [resolveFuel_succ, resolveFuel_succ]
    rcases h p with he | ⟨h1, h2⟩
    · rw [he]
      cases hv : fs p with
      | none => rfl
      | some v =>
        cases v with
        | file c => rfl
        | dir => rfl
        | link t => exact ih t
    · rw [h1, h2]

theorem resolve_mkdirWalk (l : List String) (fs : FS) (b p : Path) :
    resolve (mkdirWalk fs b l) p = resolve fs p :=
  resolveFuel_dirExtend fs (mkdirWalk fs b l)
    (fun q => mkdirWalk_pointwise l fs b q) 40 p

theorem resolve_of_none (fs : FS) (p : Path) (h : fs p = none) :
    resolve fs p = p := by
  show resolveFuel fs (39 + 1) p = p
  rw [resolveFuel_succ, h]

theorem resolve_of_file (fs : FS) (p : Path) (c : String)
    (h : fs p = some (Node.file c)) : resolve fs p = p := by
  show resolveFuel fs (39 + 1) p = p
  rw [resolveFuel_succ, h]

theorem resolve_of_dir (fs : FS) (p : Path)
    (h : fs p = some Node.dir) : resolve fs p = p := by
  show resolveFuel fs (39 + 1) p = p
  rw [resolveFuel_succ, h]

theorem lstat_iff (fs : FS) (p : Path) :
    (isSymlink fs p = true ∨ pathExists fs p = true) ↔
      (fs p).isSome = true := by
  cases hv : fs p with
  | none =>
    simp [isSymlink, pathExists, hv, resolve_of_none fs p hv]
  | some v =>
    cases v with
    | file c =>
      simp [isSymlink, pathExists, hv, resolve_of_file fs p c hv]
    | dir =>
      simp [isSymlink, pathExists, hv, resolve_of_dir fs p hv]
    | link t =>
      simp [isSymlink, hv]

theorem isSymlink_congr (fs fs' : FS) (p : Path) (h : fs' p = fs p) :
    isSymlink fs' p = isSymlink fs p := by
  unfold isSymlink; rw [h]

theorem readlink_congr (fs fs' : FS) (p : Path) (h : fs' p = fs p) :
    readlink fs' p = readlink fs p := by
  unfold readlink; rw [h]

theorem isSymlink_fsSet_link (fs : FS) (p t : Path) :
    isSymlink (fsSet fs p (Node.link t)) p = true := by
  unfold isSymlink; rw [fsSet_self]

theorem readlink_fsSet_link (fs : FS) (p t : Path) :
    readlink (fsSet fs p (Node.link t)) p = t := by
  unfold readlink; rw [fsSet_self]

theorem parent_length (p : Path) (h : p ≠ []) :
    (parent p).length + 1 = p.length := by
  unfold parent
  rw [List.length_dropLast]
  have : p.length ≠ 0 := by simpa [List.length_eq_zero] using h
  omega

theorem mkdirParents_parent_apply (fs : FS) (p : Path) (h : p ≠ []) :
    mkdirParents fs (parent p) p = fs p := by
  unfold mkdirParents
  apply mkdirWalk_untouched
  have := parent_length p h
  simp
  omega

theorem getLastD_append_single (l : List String) (y : String) :
    ∀ d, (l ++ [y]).getLastD d = y := by
  induction l with
  | nil => intro d; rfl
  | cons a l ih =>
    intro d
    rw [List.cons_append, List.getLastD_cons]
    exact ih a

theorem bdest_ne (p : Path) (ts : String) :
    BACKUP_ROOT ++ [lastName p ++ "." ++ ts] ≠ p := by
  intro h
  have h1 : lastName p = lastName p ++ "." ++ ts := by
    conv_lhs => rw [← h]
    unfold lastName
    exact getLastD_append_single BACKUP_ROOT _ ""
  have h2 := congrArg String.length h1
  rw [String.length_append, String.length_append] at h2
  have h3 : ("." : String).length = 1 := rfl
  omega

/-! ## The shapes taken by `backup` and `symlink` -/

theorem backup_of_present (fs : FS) (ts : String) (d : Path)
    (h : ¬(pathExists fs d = false ∧ isSymlink fs d = false)) :
    backup fs ts d =
      (fsMove (mkdirParents fs BACKUP_ROOT) d
          (BACKUP_ROOT ++ [lastName d ++ "." ++ ts]),
       some (BACKUP_ROOT ++ [lastName d ++ "." ++ ts])) := by
  unfold backup; rw [if_neg h]

theorem outer_not_guard (fs : FS) (d : Path)
    (hout : isSymlink fs d = true ∨ pathExists fs d = true) :
    ¬(pathExists fs d = false ∧ isSymlink fs d = false) := by
  rintro ⟨h1, h2⟩
  rcases hout with h | h
  · rw [h] at h2; cases h2
  · rw [h] at h1; cases h1

theorem symlinkAfterDirs_noop (fs1 : FS) (src dest : Path) (ts : String)
    (h : fs1 dest = some (Node.link src)) :
    symlinkAfterDirs fs1 src dest ts = (fs1, none) := by
  have hsym : isSymlink fs1 dest = true := by
    unfold isSymlink; rw [h]
  have hrl : readlink fs1 dest = src := by
    unfold readlink; rw [h]
  unfold symlinkAfterDirs
  rw [if_pos (Or.inl hsym), if_pos ⟨hsym, by rw [hrl]⟩]

theorem second_call_noop (fsr : FS) (src dest : Path) (ts2 : String)
    (hpar : mkdirParents fsr (parent dest) = fsr)
    (hdest : fsr dest = some (Node.link src)) :
    symlink fsr src dest ts2 = (fsr, none) := by
  unfold symlink
  rw [hpar]
  exact symlinkAfterDirs_noop fsr src dest ts2 hdest

theorem second_call_noop_cond (fsr : FS) (src dest : Path) (ts2 : String)
    (hpar : mkdirParents fsr (parent dest) = fsr)
    (hout : isSymlink fsr dest = true ∨ pathExists fsr dest = true)
    (hin : isSymlink fsr dest = true ∧
      resolve fsr (readlink fsr dest) = resolve fsr src) :
    symlink fsr src dest ts2 = (fsr, none) := by
  unfold symlink
  rw [hpar]
  unfold symlinkAfterDirs
  rw [if_pos hout, if_pos hin]

theorem linkResult_parents (X : FS) (src dest : Path)
    (hX : ∀ l₁ l₂, l₁ ++ l₂ = parent dest → l₁ ≠ dest → X l₁ ≠ none) :
    mkdirParents (fsSet X dest (Node.link src)) (parent dest)
      = fsSet X dest (Node.link src) := by
  apply mkdirWalk_eq_self
  intro l₁ l₂ hl
  simp only [List.nil_append]
  by_cases hld : l₁ = dest
  · subst hld; rw [fsSet_self]; simp
  · rw [fsSet_of_ne _ _ _ _ hld]
    exact hX l₁ l₂ hl hld

theorem moved_present (fs : FS) (dest : Path) (ts1 : String)
    (hbn : ∀ r, BACKUP_ROOT ++ r ≠ dest) :
    ∀ l₁ l₂, l₁ ++ l₂ = parent dest → l₁ ≠ dest →
      fsMove (mkdirParents (mkdirParents fs (parent dest)) BACKUP_ROOT) dest
        (BACKUP_ROOT ++ [lastName dest ++ "." ++ ts1]) l₁ ≠ none := by
  intro l₁ l₂ hl hld
  have hdne : dest ≠ [] := by
    intro hdest
    apply hld
    subst hdest
    have h0 : l₁ ++ l₂ = ([] : Path) := hl
    exact (List.append_eq_nil.mp h0).1
  have hmove : fsMove
      (mkdirParents (mkdirParents fs (parent dest)) BACKUP_ROOT) dest
      (BACKUP_ROOT ++ [lastName dest ++ "." ++ ts1]) l₁
      = if isPre (BACKUP_ROOT ++ [lastName dest ++ "." ++ ts1]) l₁ then
          (mkdirParents (mkdirParents fs (parent dest)) BACKUP_ROOT)
            (dest ++
              l₁.drop (BACKUP_ROOT ++ [lastName dest ++ "." ++ ts1]).length)
        else if isPre dest l₁ then none
        else (mkdirParents (mkdirParents fs (parent dest)) BACKUP_ROOT) l₁ :=
    rfl
  rw [hmove]
  by_cases hpre1 :
      isPre (BACKUP_ROOT ++ [lastName dest ++ "." ++ ts1]) l₁ = true
  · exfalso
    obtain ⟨r, hr⟩ := (isPre_iff _ _).mp hpre1
    apply hbn
      ([lastName dest ++ "." ++ ts1] ++ (r ++ (l₂ ++ [dest.getLast hdne])))
    have hl' : l₁ ++ l₂ = dest.dropLast := hl
    conv_rhs => rw [← List.dropLast_append_getLast hdne]
    rw [← hl', ← hr]
    simp [List.append_assoc]
  · rw [if_neg hpre1]
    by_cases hpre2 : isPre dest l₁ = true
    · exfalso
      obtain ⟨r, hr⟩ := (isPre_iff _ _).mp hpre2
      have e1 := congrArg List.length hl
      have e2 := congrArg List.length hr
      rw [List.length_append] at e1 e2
      have e3 := parent_length dest hdne
      omega
    · rw [if_neg hpre2]
      have hp := mkdirWalk_present l₁ l₂ fs []
      rw [hl] at hp
      simp only [List.nil_append] at hp
      have hp2 : ((mkdirParents (mkdirParents fs (parent dest)) BACKUP_ROOT)
          l₁).isSome = true :=
        mkdirWalk_isSome BACKUP_ROOT (mkdirParents fs (parent dest)) [] l₁ hp
      exact Option.ne_none_iff_isSome.mpr hp2

/-! ## Claim theorems -/

/-- Claim C1: Idempotence of `symlink`.  For every source `src` and
destination `dest` (the destination not lying under the backup root),
after one call to `symlink src dest`, a second call is a no-op: the
resulting filesystem state is exactly the state after the first call,
and the second call produces no backup record, because `dest` is then a
symlink whose resolved target equals the resolved `src`. -/
theorem symlink_idempotent (fs : FS) (src dest : Path) (ts1 ts2 : String)
    (hb : isPre BACKUP_ROOT dest = false) :
    symlink (symlink fs src dest ts1).1 src dest ts2
      = ((symlink fs src dest ts1).1, none) := by
  have hbn : ∀ r, BACKUP_ROOT ++ r ≠ dest := by
    intro r hr
    have h := (isPre_iff BACKUP_ROOT dest).mpr ⟨r, hr⟩
    rw [hb] at h
    cases h
  by_cases hout : (isSymlink (mkdirParents fs (parent dest)) dest = true
      ∨ pathExists (mkdirParents fs (parent dest)) dest = true)
  · by_cases hin : (isSymlink (mkdirParents fs (parent dest)) dest = true ∧
        resolve (mkdirParents fs (parent dest))
            (readlink (mkdirParents fs (parent dest)) dest)
          = resolve (mkdirParents fs (parent dest)) src)
    · have hres : (symlink fs src dest ts1).1
          = mkdirParents fs (parent dest) := by
        unfold symlink symlinkAfterDirs
        rw [if_pos hout, if_pos hin]
      rw [hres]
      exact second_call_noop_cond (mkdirParents fs (parent dest)) src dest
        ts2 (mkdirWalk_idem (parent dest) fs []) hout hin
    · have hguard := outer_not_guard (mkdirParents fs (parent dest)) dest hout
      have hres : (symlink fs src dest ts1).1
          = fsSet (fsMove
              (mkdirParents (mkdirParents fs (parent dest)) BACKUP_ROOT) dest
              (BACKUP_ROOT ++ [lastName dest ++ "." ++ ts1])) dest
              (Node.link src) := by
        unfold symlink symlinkAfterDirs
        rw [if_pos hout, if_neg hin, backup_of_present _ ts1 dest hguard]
      rw [hres]
      apply second_call_noop
      · apply linkResult_parents
        intro l₁ l₂ hl hld
        exact moved_present fs dest ts1 hbn l₁ l₂ hl hld
      · exact fsSet_self _ _ _
  · have hres : (symlink fs src dest ts1).1
        = fsSet (mkdirParents fs (parent dest)) dest (Node.link src) := by
      unfold symlink symlinkAfterDirs
      rw [if_neg hout]
    rw [hres]
    apply second_call_noop
    · apply linkResult_parents
      intro l₁ l₂ hl hld
      have hp := mkdirWalk_present l₁ l₂ fs []
      rw [hl] at hp
      simp only [List.nil_append] at hp
      exact Option.ne_none_iff_isSome.mpr hp
    · exact fsSet_self _ _ _

/-- Closed instance of `symlink_idempotent` at a concrete filesystem,
source and destination. -/
theorem symlink_idempotent_witness :
    isPre BACKUP_ROOT c1Dest = false ∧
      symlink (symlink c1Fs c1Src c1Dest "20240101-000000").1 c1Src c1Dest
          "20240101-000001"
        = ((symlink c1Fs c1Src c1Dest "20240101-000000").1, none) :=
  ⟨by decide, symlink_idempotent c1Fs c1Src c1Dest _ _ (by decide)⟩

theorem isPre_refl {α : Type} [DecidableEq α] (p : List α) :
    isPre p p = true :=
  (isPre_iff p p).mpr ⟨[], List.append_nil p⟩

/-- Claim C2: Backup preserves data.  If the destination `d` holds a
regular file with content `X` before `symlink src d` (in particular it
is not a symlink, so not a correct symlink to `src`), then after the
call the old content survives as a regular file at the returned backup
location, which lies under `BACKUP_ROOT`, and `d` is a symlink to
`src`: the pre-existing destination is moved, never deleted. -/
theorem symlink_backup_preserves (fs : FS) (src d : Path) (ts X : String)
    (h : fs d = some (Node.file X)) :
    (symlink fs src d ts).2
        = some (BACKUP_ROOT ++ [lastName d ++ "." ++ ts]) ∧
      isPre BACKUP_ROOT (BACKUP_ROOT ++ [lastName d ++ "." ++ ts]) = true ∧
      (symlink fs src d ts).1 (BACKUP_ROOT ++ [lastName d ++ "." ++ ts])
        = some (Node.file X) ∧
      (symlink fs src d ts).1 d = some (Node.link src) := by
  have hgd : mkdirParents fs (parent d) d = some (Node.file X) :=
    mkdirWalk_keep (parent d) fs [] d _ h
  have hsym : isSymlink (mkdirParents fs (parent d)) d = false := by
    unfold isSymlink; rw [hgd]
  have hex : pathExists (mkdirParents fs (parent d)) d = true := by
    unfold pathExists
    rw [resolve_of_file _ d X hgd, hgd]
    rfl
  have hout : isSymlink (mkdirParents fs (parent d)) d = true ∨
      pathExists (mkdirParents fs (parent d)) d = true := Or.inr hex
  have hin : ¬(isSymlink (mkdirParents fs (parent d)) d = true ∧
      resolve (mkdirParents fs (parent d))
          (readlink (mkdirParents fs (parent d)) d)
        = resolve (mkdirParents fs (parent d)) src) := by
    rintro ⟨h1, -⟩
    rw [hsym] at h1
    cases h1
  have hguard := outer_not_guard (mkdirParents fs (parent d)) d hout
  have hres : symlink fs src d ts
      = (fsSet (fsMove
            (mkdirParents (mkdirParents fs (parent d)) BACKUP_ROOT) d
            (BACKUP_ROOT ++ [lastName d ++ "." ++ ts])) d (Node.link src),
         some (BACKUP_ROOT ++ [lastName d ++ "." ++ ts])) := by
    unfold symlink symlinkAfterDirs
    rw [if_pos hout, if_neg hin, backup_of_present _ ts d hguard]
  have h1 : (symlink fs src d ts).2
      = some (BACKUP_ROOT ++ [lastName d ++ "." ++ ts]) := by
    rw [hres]
  have h2 : (symlink fs src d ts).1
      = fsSet (fsMove
          (mkdirParents (mkdirParents fs (parent d)) BACKUP_ROOT) d
          (BACKUP_ROOT ++ [lastName d ++ "." ++ ts])) d (Node.link src) := by
    rw [hres]
  refine ⟨h1, (isPre_iff _ _).mpr ⟨[lastName d ++ "." ++ ts], rfl⟩, ?_,
    by rw [h2]; exact fsSet_self _ _ _⟩
  rw [h2, fsSet_of_ne _ _ _ _ (bdest_ne d ts)]
  have hmv : fsMove
      (mkdirParents (mkdirParents fs (parent d)) BACKUP_ROOT) d
      (BACKUP_ROOT ++ [lastName d ++ "." ++ ts])
      (BACKUP_ROOT ++ [lastName d ++ "." ++ ts])
      = (mkdirParents (mkdirParents fs (parent d)) BACKUP_ROOT)
          (d ++ (BACKUP_ROOT ++ [lastName d ++ "." ++ ts]).drop
            (BACKUP_ROOT ++ [lastName d ++ "." ++ ts]).length) := by
    unfold fsMove
    rw [if_pos (isPre_refl _)]
  rw [hmv, List.drop_length, List.append_nil]
  exact mkdirWalk_keep BACKUP_ROOT (mkdirParents fs (parent d)) [] d _ hgd

/-- Closed instance of `symlink_backup_preserves`: a pre-existing
regular file `"X"` at the destination is preserved under the backup
root and the destination becomes the requested symlink. -/
theorem symlink_backup_preserves_witness :
    c2Fs c2Dest = some (Node.file "X") ∧
      ((symlink c2Fs c2Src c2Dest "20240101-000000").2
          = some (BACKUP_ROOT ++
              [lastName c2Dest ++ "." ++ "20240101-000000"]) ∧
        isPre BACKUP_ROOT
            (BACKUP_ROOT ++ [lastName c2Dest ++ "." ++ "20240101-000000"])
          = true ∧
        (symlink c2Fs c2Src c2Dest "20240101-000000").1
            (BACKUP_ROOT ++ [lastName c2Dest ++ "." ++ "20240101-000000"])
          = some (Node.file "X") ∧
        (symlink c2Fs c2Src c2Dest "20240101-000000").1 c2Dest
          = some (Node.link c2Src)) :=
  ⟨by decide, symlink_backup_preserves c2Fs c2Src c2Dest _ "X" (by decide)⟩

/-- Claim C3: Backup-iff invariant of `symlink`.  A backup record is
produced by `symlink src d` exactly when `d` already carries an entry
(regular file, directory, or symlink — broken ones included, checked
without following links) and `d` is not already a symlink whose
resolved target equals the resolved `src`. -/
theorem symlink_backup_iff (fs : FS) (src d : Path) (ts : String)
    (hd : d ≠ []) :
    (symlink fs src d ts).2.isSome = true ↔
      ((fs d).isSome = true ∧
        ¬(isSymlink fs d = true ∧
          resolve fs (readlink fs d) = resolve fs src)) := by
  have hgd : mkdirParents fs (parent d) d = fs d :=
    mkdirParents_parent_apply fs d hd
  have hsymc : isSymlink (mkdirParents fs (parent d)) d = isSymlink fs d :=
    isSymlink_congr fs _ d hgd
  have hrlc : readlink (mkdirParents fs (parent d)) d = readlink fs d :=
    readlink_congr fs _ d hgd
  have hrc : ∀ p, resolve (mkdirParents fs (parent d)) p = resolve fs p :=
    fun p => resolve_mkdirWalk (parent d) fs [] p
  by_cases hout : (isSymlink (mkdirParents fs (parent d)) d = true ∨
      pathExists (mkdirParents fs (parent d)) d = true)
  · by_cases hin : (isSymlink (mkdirParents fs (parent d)) d = true ∧
        resolve (mkdirParents fs (parent d))
            (readlink (mkdirParents fs (parent d)) d)
          = resolve (mkdirParents fs (parent d)) src)
    · have hres : (symlink fs src d ts).2 = none := by
        unfold symlink symlinkAfterDirs
        rw [if_pos hout, if_pos hin]
      rw [hres]
      constructor
      · intro h; cases h
      · rintro ⟨-, h2⟩
        exfalso
        apply h2
        constructor
        · rw [← hsymc]; exact hin.1
        · have h2' := hin.2
          rw [hrlc, hrc (readlink fs d), hrc src] at h2'
          exact h2'
    · have hguard := outer_not_guard (mkdirParents fs (parent d)) d hout
      have hres : (symlink fs src d ts).2
          = some (BACKUP_ROOT ++ [lastName d ++ "." ++ ts]) := by
        unfold symlink symlinkAfterDirs
        rw [if_pos hout, if_neg hin, backup_of_present _ ts d hguard]
      rw [hres]
      constructor
      · intro _
        constructor
        · have hiff := (lstat_iff (mkdirParents fs (parent d)) d).mp hout
          rw [hgd] at hiff
          exact hiff
        · intro hcontra
          apply hin
          constructor
          · rw [hsymc]; exact hcontra.1
          · rw [hrlc, hrc (readlink fs d), hrc src]
            exact hcontra.2
      · intro _; rfl
  · have hres : (symlink fs src d ts).2 = none := by
      unfold symlink symlinkAfterDirs
      rw [if_neg hout]
    rw [hres]
    have hnotsome : ¬((fs d).isSome = true) := by
      intro hs
      apply hout
      apply (lstat_iff (mkdirParents fs (parent d)) d).mpr
      rw [hgd]
      exact hs
    constructor
    · intro h; cases h
    · rintro ⟨h1, -⟩
      exact absurd h1 hnotsome

/-- Closed instance of `symlink_backup_iff`: on an empty filesystem the
destination does not exist, so no backup is produced. -/
theorem symlink_backup_iff_witness :
    c3Dest ≠ [] ∧
      ((symlink c3Fs c3Src c3Dest "20240101-000000").2.isSome = true ↔
        ((c3Fs c3Dest).isSome = true ∧
          ¬(isSymlink c3Fs c3Dest = true ∧
            resolve c3Fs (readlink c3Fs c3Dest)
              = resolve c3Fs c3Src))) :=
  ⟨by decide, symlink_backup_iff c3Fs c3Src c3Dest _ (by decide)⟩

/-! ## Lemmas about the line splitter and occurrence counts -/

theorem slGo_nil (cur : List Char) :
    slGo cur [] = if cur = [] then [] else [cur.reverse] := rfl

theorem slGo_cons (cur : List Char) (c : Char) (rest : List Char) :
    slGo cur (c :: rest) =
      if c = '\n' then cur.reverse :: slGo [] rest
      else slGo (c :: cur) rest := rfl

theorem not_mem_append_of {a : Char} {l₁ l₂ : List Char}
    (h1 : a ∉ l₁) (h2 : a ∉ l₂) : a ∉ l₁ ++ l₂ :=
  fun hm => (List.mem_append.mp hm).elim h1 h2

theorem slGo_flush : ∀ (xs rest cur : List Char), ('\n' : Char) ∉ xs →
    slGo cur (xs ++ '\n' :: rest) = (cur.reverse ++ xs) :: slGo [] rest := by
  intro xs
  induction xs with
  | nil =>
    intro rest cur _
    rw [List.nil_append, slGo_cons, if_pos rfl, List.append_nil]
  | cons x xs ih =>
    intro rest cur h
    have hxn : x ≠ '\n' := fun he => h (he ▸ List.mem_cons_self x xs)
    have hxs : ('\n' : Char) ∉ xs := fun hm => h (List.mem_cons_of_mem x hm)
    rw [List.cons_append, slGo_cons, if_neg hxn, ih rest (x :: cur) hxs,
      List.reverse_cons, List.append_assoc, List.singleton_append]

theorem slGo_split : ∀ (xs ys cur : List Char),
    slGo cur (xs ++ '\n' :: ys) = slGo cur (xs ++ ['\n']) ++ slGo [] ys := by
  intro xs
  induction xs with
  | nil =>
    intro ys cur
    rw [List.nil_append, List.nil_append, slGo_cons, if_pos rfl, slGo_cons,
      if_pos rfl, slGo_nil, if_pos rfl]
    rfl
  | cons x xs ih =>
    intro ys cur
    by_cases hx : x = '\n'
    · subst hx
      rw [List.cons_append, List.cons_append, slGo_cons, if_pos rfl,
        slGo_cons, if_pos rfl, ih ys []]
      rfl
    · rw [List.cons_append, List.cons_append, slGo_cons, if_neg hx,
        slGo_cons, if_neg hx, ih ys (x :: cur)]

theorem lastNl (l : List Char) :
    ('\n' : Char) ∉ l ∨
      ∃ l₁ l₂, l = l₁ ++ '\n' :: l₂ ∧ ('\n' : Char) ∉ l₂ := by
  induction l with
  | nil => left; simp
  | cons c l ih =>
    rcases ih with h | ⟨l₁, l₂, hl, h2⟩
    · by_cases hc : c = '\n'
      · right
        exact ⟨[], l, by rw [hc]; rfl, h⟩
      · left
        intro hm
        rcases List.mem_cons.mp hm with he | hm2
        · exact hc he.symm
        · exact h hm2
    · right
      exact ⟨c :: l₁, l₂, by rw [hl]; rfl, h2⟩

theorem slGo_shape (Ed X : List Char) (hX : ('\n' : Char) ∉ X) :
    ∃ P e2, (('\n' : Char) ∉ e2) ∧
      slGo [] Ed = P ++ slGo [] e2 ∧
      slGo [] (Ed ++ (X ++ ['\n'])) = P ++ [e2 ++ X] ∧
      slGo [] ((Ed ++ (X ++ ['\n'])) ++ (X ++ ['\n']))
        = P ++ [e2 ++ X, X] := by
  rcases lastNl Ed with hEd | ⟨e1, e2, hdec, h2⟩
  · refine ⟨[], Ed, hEd, (List.nil_append _).symm, ?_, ?_⟩
    · have ha : Ed ++ (X ++ ['\n']) = (Ed ++ X) ++ '\n' :: [] :=
        (List.append_assoc Ed X ['\n']).symm
      rw [ha, slGo_flush (Ed ++ X) [] [] (not_mem_append_of hEd hX),
        slGo_nil, if_pos rfl]
      simp
    · have ha : (Ed ++ (X ++ ['\n'])) ++ (X ++ ['\n'])
          = (Ed ++ X) ++ '\n' :: (X ++ '\n' :: []) := by
        simp [List.append_assoc]
      rw [ha, slGo_flush (Ed ++ X) (X ++ '\n' :: []) []
          (not_mem_append_of hEd hX),
        slGo_flush X [] [] hX, slGo_nil, if_pos rfl]
      simp
  · subst hdec
    refine ⟨slGo [] (e1 ++ ['\n']), e2, h2, slGo_split e1 e2 [], ?_, ?_⟩
    · have ha : (e1 ++ '\n' :: e2) ++ (X ++ ['\n'])
          = e1 ++ '\n' :: ((e2 ++ X) ++ '\n' :: []) := by
        simp [List.append_assoc]
      rw [ha, slGo_split e1 ((e2 ++ X) ++ '\n' :: []) [],
        slGo_flush (e2 ++ X) [] [] (not_mem_append_of h2 hX), slGo_nil,
        if_pos rfl]
      simp
    · have ha : ((e1 ++ '\n' :: e2) ++ (X ++ ['\n'])) ++ (X ++ ['\n'])
          = e1 ++ '\n' :: ((e2 ++ X) ++ '\n' :: (X ++ '\n' :: [])) := by
        simp [List.append_assoc]
      rw [ha, slGo_split e1 ((e2 ++ X) ++ '\n' :: (X ++ '\n' :: [])) [],
        slGo_flush (e2 ++ X) (X ++ '\n' :: []) []
          (not_mem_append_of h2 hX),
        slGo_flush X [] [] hX, slGo_nil, if_pos rfl]
      simp

theorem countStr_append (t : String) (l₁ l₂ : List String) :
    countStr t (l₁ ++ l₂) = countStr t l₁ + countStr t l₂ := by
  induction l₁ with
  | nil =>
    rw [List.nil_append]
    show countStr t l₂ = 0 + countStr t l₂
    omega
  | cons x xs ih =>
    show (if x = t then 1 else 0) + countStr t (xs ++ l₂) = _
    rw [ih]
    show _ = (if x = t then 1 else 0) + countStr t xs + countStr t l₂
    omega

theorem countStr_eq_zero (t : String) (l : List String) :
    countStr t l = 0 ↔ t ∉ l := by
  induction l with
  | nil => simp [countStr]
  | cons x xs ih =>
    show (if x = t then 1 else 0) + countStr t xs = 0 ↔ _
    by_cases hx : x = t
    · rw [if_pos hx]
      simp [hx]
    · rw [if_neg hx]
      simp only [Nat.zero_add, ih, List.mem_cons]
      constructor
      · intro h hm
        rcases hm with he | hm2
        · exact hx he.symm
        · exact h hm2
      · intro h hm
        exact h (Or.inr hm)

theorem countStr_singleton (t x : String) :
    countStr t [x] = if x = t then 1 else 0 := by
  show (if x = t then 1 else 0) + 0 = _
  omega

theorem trimmedLines_eq (S : String) :
    (splitlines S).map strTrim
      = (slGo [] S.data).map (fun cs => strTrim (String.mk cs)) := by
  unfold splitlines
  rw [List.map_map]
  rfl

theorem countTrimmed_append_line (E L : String)
    (hL : ('\n' : Char) ∉ L.data)
    (h0 : countTrimmed E (strTrim L) = 0) :
    (strTrim L ∈ (splitlines (E ++ (L ++ "\n"))).map strTrim →
      countTrimmed (E ++ (L ++ "\n")) (strTrim L) = 1) ∧
    (strTrim L ∉ (splitlines (E ++ (L ++ "\n"))).map strTrim →
      countTrimmed ((E ++ (L ++ "\n")) ++ (L ++ "\n")) (strTrim L) = 1) := by
  obtain ⟨P, e2, hP2, hE, hE2, hF⟩ := slGo_shape E.data L.data hL
  have hnl : ("\n" : String).data = ['\n'] := rfl
  have hd1 : (E ++ (L ++ "\n")).data = E.data ++ (L.data ++ ['\n']) := by
    rw [String.data_append, String.data_append, hnl]
  have hd2 : ((E ++ (L ++ "\n")) ++ (L ++ "\n")).data
      = (E.data ++ (L.data ++ ['\n'])) ++ (L.data ++ ['\n']) := by
    rw [String.data_append, hd1, String.data_append, hnl]
  have hP0 : countStr (strTrim L)
      (P.map (fun cs => strTrim (String.mk cs))) = 0 := by
    have h0' : countStr (strTrim L)
        ((slGo [] E.data).map (fun cs => strTrim (String.mk cs))) = 0 := by
      unfold countTrimmed at h0
      rw [trimmedLines_eq] at h0
      exact h0
    rw [hE, List.map_append, countStr_append] at h0'
    omega
  constructor
  · intro hm
    rw [trimmedLines_eq, hd1, hE2, List.map_append] at hm
    have hm2 : strTrim L = strTrim (String.mk (e2 ++ L.data)) := by
      rcases List.mem_append.mp hm with h | h
      · exact absurd h ((countStr_eq_zero _ _).mp hP0)
      · simpa using h
    unfold countTrimmed
    rw [trimmedLines_eq, hd1, hE2, List.map_append, countStr_append, hP0]
    have hone : countStr (strTrim L)
        (List.map (fun cs => strTrim (String.mk cs)) [e2 ++ L.data]) = 1 := by
      rw [List.map_cons, List.map_nil, countStr_singleton, if_pos hm2.symm]
    omega
  · intro hm
    rw [trimmedLines_eq, hd1, hE2, List.map_append] at hm
    have hne : strTrim (String.mk (e2 ++ L.data)) ≠ strTrim L := by
      intro he
      apply hm
      apply List.mem_append.mpr
      right
      simp [he]
    unfold countTrimmed
    rw [trimmedLines_eq, hd2, hF, List.map_append, countStr_append, hP0]
    rw [List.map_cons, List.map_cons, List.map_nil]
    show 0 + ((if strTrim (String.mk (e2 ++ L.data)) = strTrim L
        then 1 else 0) +
      ((if strTrim (String.mk L.data) = strTrim L then 1 else 0) + 0)) = 1
    rw [if_neg hne, if_pos rfl]

/-! ## Lemmas about `append_unique_line` -/

theorem goodFileAt_cases (fs : FS) (p : Path) (h : goodFileAt fs p = true) :
    fs p = none ∨ ∃ c, fs p = some (Node.file c) := by
  unfold goodFileAt at h
  cases hv : fs p with
  | none => left; rfl
  | some v =>
    cases v with
    | file c => right; exact ⟨c, rfl⟩
    | dir => rw [hv] at h; cases h
    | link t => rw [hv] at h; cases h

theorem resolve_of_good (fs : FS) (p : Path) (h : goodFileAt fs p = true) :
    resolve fs p = p := by
  rcases goodFileAt_cases fs p h with h0 | ⟨c, h0⟩
  · exact resolve_of_none fs p h0
  · exact resolve_of_file fs p c h0

theorem aulAfterDirs_shape (fs1 : FS) (f : Path) (L : String)
    (hg : goodFileAt fs1 f = true) :
    aulAfterDirs fs1 f L =
      if strTrim L ∉ (splitlines (fileTextD fs1 f)).map strTrim then
        fsSet fs1 f (Node.file (fileTextD fs1 f ++ (L ++ "\n")))
      else fs1 := by
  have hres : resolve fs1 f = f := resolve_of_good fs1 f hg
  have hread : (if pathExists fs1 f = true then readTextD fs1 f else "")
      = fileTextD fs1 f := by
    rcases goodFileAt_cases fs1 f hg with h0 | ⟨c, h0⟩
    · have hpe : pathExists fs1 f = false := by
        unfold pathExists
        rw [hres, h0]
        rfl
      rw [hpe]
      unfold fileTextD
      rw [h0]
      simp
    · have hpe : pathExists fs1 f = true := by
        unfold pathExists
        rw [hres, h0]
        rfl
      rw [hpe]
      unfold readTextD fileTextD
      rw [hres, h0]
      simp
  have hwr : fsAppendWrite fs1 f (L ++ "\n")
      = fsSet fs1 f (Node.file (fileTextD fs1 f ++ (L ++ "\n"))) := by
    unfold fsAppendWrite fileTextD
    rw [hres]
  unfold aulAfterDirs
  rw [hread, hwr]

theorem aul_eq (fs : FS) (f : Path) (L : String) (hf : f ≠ [])
    (hg : goodFileAt fs f = true) :
    append_unique_line fs f L =
      if strTrim L ∉ (splitlines (fileTextD fs f)).map strTrim then
        fsSet (mkdirParents fs (parent f)) f
          (Node.file (fileTextD fs f ++ (L ++ "\n")))
      else mkdirParents fs (parent f) := by
  have hpt : mkdirParents fs (parent f) f = fs f :=
    mkdirParents_parent_apply fs f hf
  have hg1 : goodFileAt (mkdirParents fs (parent f)) f = true := by
    unfold goodFileAt at hg ⊢
    rw [hpt]
    exact hg
  have hft : fileTextD (mkdirParents fs (parent f)) f = fileTextD fs f := by
    unfold fileTextD
    rw [hpt]
  unfold append_unique_line
  rw [aulAfterDirs_shape _ f L hg1, hft]

theorem fsSet_isSome_of (fs : FS) (p : Path) (n : Node) (q : Path)
    (h : (fs q).isSome = true) : ((fsSet fs p n) q).isSome = true := by
  by_cases hqp : q = p
  · subst hqp
    rw [fsSet_self]
    rfl
  · rw [fsSet_of_ne _ _ _ _ hqp]
    exact h

theorem fileTextD_congr (fs fs' : FS) (p : Path) (h : fs' p = fs p) :
    fileTextD fs' p = fileTextD fs p := by
  unfold fileTextD
  rw [h]

theorem fileTextD_fsSet_file (fs : FS) (p : Path) (c : String) :
    fileTextD (fsSet fs p (Node.file c)) p = c := by
  unfold fileTextD
  rw [fsSet_self]

/-- Claim C4 counterexample: with a pre-existing file already holding the
logical line `x` twice, two calls of `append_unique_line` with `x` are
both no-ops and the file keeps two occurrences of the trimmed line — not
exactly one, refuting the claim for arbitrary prior content. -/
theorem append_unique_line_twice_dup :
    countTrimmed
        (fileTextD (append_unique_line (append_unique_line c4DupFs
          c4DupFile "x") c4DupFile "x") c4DupFile) (strTrim "x") = 2 ∧
      countTrimmed
        (fileTextD (append_unique_line (append_unique_line c4DupFs
          c4DupFile "x") c4DupFile "x") c4DupFile) (strTrim "x") ≠ 1 :=
  ⟨by decide, by decide⟩

/-- Claim C4 (amended): for a single-line `L` and a destination that is
absent or a regular file, calling `append_unique_line f L` twice leaves
the file with exactly `max k 1` occurrences of the trimmed line, where
`k` is the number of pre-existing lines trimming to `L` — so exactly one
occurrence whenever the prior content had none, and never any
accumulation of duplicates under repeated calls. -/
theorem append_unique_line_twice_count (fs : FS) (f : Path) (L : String)
    (hf : f ≠ []) (hg : goodFileAt fs f = true)
    (hL : ('\n' : Char) ∉ L.data) :
    countTrimmed
        (fileTextD (append_unique_line (append_unique_line fs f L) f L) f)
        (strTrim L)
      = max (countTrimmed (fileTextD fs f) (strTrim L)) 1 := by
  rw [aul_eq fs f L hf hg]
  by_cases hmem : strTrim L ∈ (splitlines (fileTextD fs f)).map strTrim
  · rw [if_neg (not_not_intro hmem)]
    have hpt : mkdirParents fs (parent f) f = fs f :=
      mkdirParents_parent_apply fs f hf
    have hg1 : goodFileAt (mkdirParents fs (parent f)) f = true := by
      unfold goodFileAt at hg ⊢
      rw [hpt]
      exact hg
    have hft : fileTextD (mkdirParents fs (parent f)) f = fileTextD fs f := by
      unfold fileTextD
      rw [hpt]
    rw [aul_eq (mkdirParents fs (parent f)) f L hf hg1, hft,
      if_neg (not_not_intro hmem)]
    have hpt2 : mkdirParents (mkdirParents fs (parent f)) (parent f) f
        = (mkdirParents fs (parent f)) f :=
      mkdirParents_parent_apply (mkdirParents fs (parent f)) f hf
    have hft2 : fileTextD
        (mkdirParents (mkdirParents fs (parent f)) (parent f)) f
        = fileTextD fs f := by
      unfold fileTextD
      rw [hpt2, hpt]
    rw [hft2]
    have hk : countTrimmed (fileTextD fs f) (strTrim L) ≠ 0 := by
      intro h
      unfold countTrimmed at h
      exact ((countStr_eq_zero _ _).mp h) hmem
    rw [max_eq_left (Nat.one_le_iff_ne_zero.mpr hk)]
  · have hk0 : countTrimmed (fileTextD fs f) (strTrim L) = 0 := by
      unfold countTrimmed
      exact (countStr_eq_zero _ _).mpr hmem
    rw [if_pos hmem]
    have hgw : goodFileAt (fsSet (mkdirParents fs (parent f)) f
        (Node.file (fileTextD fs f ++ (L ++ "\n")))) f = true := by
      unfold goodFileAt
      rw [fsSet_self]
    have hfw : fileTextD (fsSet (mkdirParents fs (parent f)) f
        (Node.file (fileTextD fs f ++ (L ++ "\n")))) f
        = fileTextD fs f ++ (L ++ "\n") := by
      unfold fileTextD
      rw [fsSet_self]
    rw [aul_eq _ f L hf hgw, hfw, hk0]
    by_cases hmem2 : strTrim L ∈
        (splitlines (fileTextD fs f ++ (L ++ "\n"))).map strTrim
    · rw [if_neg (not_not_intro hmem2)]
      have hpt3 : mkdirParents (fsSet (mkdirParents fs (parent f)) f
          (Node.file (fileTextD fs f ++ (L ++ "\n")))) (parent f) f
          = fsSet (mkdirParents fs (parent f)) f
              (Node.file (fileTextD fs f ++ (L ++ "\n"))) f :=
        mkdirParents_parent_apply _ f hf
      have hft3 : fileTextD (mkdirParents (fsSet
          (mkdirParents fs (parent f)) f
          (Node.file (fileTextD fs f ++ (L ++ "\n")))) (parent f)) f
          = fileTextD fs f ++ (L ++ "\n") :=
        (fileTextD_congr _ _ f hpt3).trans
          (fileTextD_fsSet_file _ f (fileTextD fs f ++ (L ++ "\n")))
      rw [hft3,
        (countTrimmed_append_line (fileTextD fs f) L hL hk0).1 hmem2]
      decide
    · rw [if_pos hmem2]
      have hftf : fileTextD (fsSet (mkdirParents (fsSet
          (mkdirParents fs (parent f)) f
          (Node.file (fileTextD fs f ++ (L ++ "\n")))) (parent f)) f
          (Node.file ((fileTextD fs f ++ (L ++ "\n")) ++ (L ++ "\n")))) f
          = (fileTextD fs f ++ (L ++ "\n")) ++ (L ++ "\n") := by
        unfold fileTextD
        rw [fsSet_self]
      rw [hftf,
        (countTrimmed_append_line (fileTextD fs f) L hL hk0).2 hmem2]
      decide

/-- Closed instance of `append_unique_line_twice_count` on an initially
missing profile file: two appends of `export PATH` leave exactly one
occurrence. -/
theorem append_unique_line_twice_count_witness :
    c4File ≠ [] ∧ goodFileAt c4Fs c4File = true ∧
      ('\n' : Char) ∉ ("export PATH" : String).data ∧
      countTrimmed
          (fileTextD (append_unique_line (append_unique_line c4Fs c4File
            "export PATH") c4File "export PATH") c4File)
          (strTrim "export PATH")
        = max (countTrimmed (fileTextD c4Fs c4File)
            (strTrim "export PATH")) 1 :=
  ⟨by decide, by decide, by decide,
    append_unique_line_twice_count c4Fs c4File "export PATH" (by decide)
      (by decide) (by decide)⟩

/-- Claim C5: Functional contract of `append_unique_line`.  The call
reads the file's current content (a missing file reads as the empty
string), splits it into lines and compares each whitespace-trimmed line
with the trimmed `L`: if no trimmed line equals the trimmed `L`, the
content becomes the old content with `L` and a newline appended;
otherwise the content is unchanged. -/
theorem append_unique_line_contract (fs : FS) (f : Path) (L : String)
    (hf : f ≠ []) (hg : goodFileAt fs f = true) :
    (strTrim L ∉ (splitlines (fileTextD fs f)).map strTrim →
      fileTextD (append_unique_line fs f L) f
        = fileTextD fs f ++ L ++ "\n") ∧
    (strTrim L ∈ (splitlines (fileTextD fs f)).map strTrim →
      fileTextD (append_unique_line fs f L) f = fileTextD fs f) := by
  rw [aul_eq fs f L hf hg]
  constructor
  · intro hmem
    rw [if_pos hmem]
    unfold fileTextD
    rw [fsSet_self, String.append_assoc]
  · intro hmem
    rw [if_neg (not_not_intro hmem)]
    unfold fileTextD
    rw [mkdirParents_parent_apply fs f hf]

/-- Closed instance of `append_unique_line_contract`: a line already
present modulo surrounding whitespace leaves the profile content
unchanged. -/
theorem append_unique_line_contract_witness :
    c5File ≠ [] ∧ goodFileAt c5Fs c5File = true ∧
      ((strTrim "alias ll" ∉
          (splitlines (fileTextD c5Fs c5File)).map strTrim →
        fileTextD (append_unique_line c5Fs c5File "alias ll") c5File
          = fileTextD c5Fs c5File ++ "alias ll" ++ "\n") ∧
       (strTrim "alias ll" ∈
          (splitlines (fileTextD c5Fs c5File)).map strTrim →
        fileTextD (append_unique_line c5Fs c5File "alias ll") c5File
          = fileTextD c5Fs c5File)) :=
  ⟨by decide, by decide,
    append_unique_line_contract c5Fs c5File "alias ll" (by decide)
      (by decide)⟩

/-- Claim C10: `append_unique_line` unconditionally ensures the missing
ancestor directories of the target file: after any call — including the
no-op branch in which the trimmed line is already present and the file
content stays unchanged — every ancestor of the file's parent directory
holds an entry, so the call mutates the filesystem even when it appends
nothing. -/
theorem append_unique_line_parents (fs : FS) (f : Path) (L : String)
    (q : Path) (hq : isPre q (parent f) = true) :
    ((append_unique_line fs f L) q).isSome = true := by
  obtain ⟨r, hr⟩ := (isPre_iff q (parent f)).mp hq
  have hgq : ((mkdirParents fs (parent f)) q).isSome = true := by
    have hp := mkdirWalk_present q r fs []
    rw [hr] at hp
    simpa using hp
  unfold append_unique_line aulAfterDirs
  by_cases hc : strTrim L ∉
      (splitlines (if pathExists (mkdirParents fs (parent f)) f = true
        then readTextD (mkdirParents fs (parent f)) f else "")).map strTrim
  · rw [if_pos hc]
    unfold fsAppendWrite
    exact fsSet_isSome_of _ _ _ q hgq
  · rw [if_neg hc]
    exact hgq

/-- Closed instance of `append_unique_line_parents`: appending into a
file under `~/.config/fish` creates the `~/.config` ancestor even though
the filesystem started empty. -/
theorem append_unique_line_parents_witness :
    isPre ["home", "user", ".config"] (parent c10File) = true ∧
      ((append_unique_line c10Fs c10File "set -x EDITOR nvim")
        ["home", "user", ".config"]).isSome = true :=
  ⟨by decide,
    append_unique_line_parents c10Fs c10File "set -x EDITOR nvim"
      ["home", "user", ".config"] (by decide)⟩

/-- Claim C6 counterexample: for the unsupported pair (linux, arm64) the
fd installer does raise, but its message `Unsupported OS: linux` names
only the operating system — the architecture does not occur in it, so
the message does not identify the unsupported combination. -/
theorem install_fd_message_incomplete :
    install_fd "linux" "arm64" false
        = Except.error ("Unsupported OS: " ++ "linux") ∧
      strContains ("Unsupported OS: " ++ "linux") "arm64" = false :=
  ⟨rfl, by decide⟩

/-- Claim C6 (amended): for every (operating-system, architecture) pair
outside the supported enumeration (darwin with brew; linux/x86_64;
darwin/arm64), both `install_fd` and `install_neovim` fail fast with an
error and perform no download and no file placement (an `Except.error`
carries no action list).  The neovim message identifies the full
combination; the fd message is descriptive but names only the operating
system. -/
theorem installers_unsupported (sys arch : String) (hasBrew tf ire : Bool)
    (h1 : ¬(sys = "darwin" ∧ hasBrew = true))
    (h2 : ¬(sys = "linux" ∧ arch = "x86_64"))
    (h3 : ¬(sys = "darwin" ∧ arch = "arm64")) :
    install_fd sys arch hasBrew
        = Except.error ("Unsupported OS: " ++ sys) ∧
      install_neovim sys arch hasBrew tf ire
        = Except.error ("Unsupported combo: " ++ sys ++ " " ++ arch) := by
  constructor
  · unfold install_fd
    rw [if_neg h1]
    by_cases hl : sys = "linux"
    · rw [if_pos hl]
      have hx : ¬(arch = "x86_64") := fun ha => h2 ⟨hl, ha⟩
      rw [if_neg hx]
    · rw [if_neg hl]
      by_cases hdw : sys = "darwin"
      · rw [if_pos hdw]
        have hx : ¬(arch = "arm64") := fun ha => h3 ⟨hdw, ha⟩
        rw [if_neg hx]
      · rw [if_neg hdw]
  · unfold install_neovim
    rw [if_neg h1, if_neg h2, if_neg h3]

/-- Closed instance of `installers_unsupported` at the unsupported host
pair (windows, x86_64) without brew. -/
theorem installers_unsupported_witness :
    ¬(("windows" : String) = "darwin" ∧ false = true) ∧
      ¬(("windows" : String) = "linux" ∧ ("x86_64" : String) = "x86_64") ∧
      ¬(("windows" : String) = "darwin" ∧ ("x86_64" : String) = "arm64") ∧
      (install_fd "windows" "x86_64" false
          = Except.error ("Unsupported OS: " ++ "windows") ∧
        install_neovim "windows" "x86_64" false false false
          = Except.error
              ("Unsupported combo: " ++ "windows" ++ " " ++ "x86_64")) :=
  ⟨by decide, by decide, by decide,
    installers_unsupported "windows" "x86_64" false false false
      (by decide) (by decide) (by decide)⟩

/-- Claim C7: the platform detector never yields a canonical pair of the
closed support matrix for a host operating system other than darwin and
linux: whatever the machine string, the returned pair's system component
is the lower-cased host name, which lies outside the enumeration. -/
theorem os_arch_unsupported (sysRaw machineRaw : String)
    (h1 : strToLower sysRaw ≠ "darwin") (h2 : strToLower sysRaw ≠ "linux") :
    os_arch sysRaw machineRaw ∉ PLATFORM_MATRIX := by
  intro hm
  simp only [PLATFORM_MATRIX, List.mem_cons, List.not_mem_nil,
    or_false] at hm
  rcases hm with he | he | he | he
  · exact h1 (congrArg Prod.fst he)
  · exact h1 (congrArg Prod.fst he)
  · exact h2 (congrArg Prod.fst he)
  · exact h2 (congrArg Prod.fst he)

/-- Closed instance of `os_arch_unsupported` at a Windows host. -/
theorem os_arch_unsupported_witness :
    strToLower "Windows" ≠ "darwin" ∧
      strToLower "Windows" ≠ "linux" ∧
      os_arch "Windows" "AMD64" ∉ PLATFORM_MATRIX :=
  ⟨by decide, by decide,
    os_arch_unsupported "Windows" "AMD64" (by decide) (by decide)⟩

/-- Claim C8: platform filtering in the link reconciler.  A run of
`link_configs` is unchanged when the configuration is restricted to the
entries whose lower-cased platform list contains the detected system,
and an entry tagged only for other platforms causes no filesystem
mutation at all. -/
theorem link_configs_platform_filter (sys ts : String)
    (cfg : List LinkEntry) (fs : FS) :
    link_configs sys ts cfg fs
      = link_configs sys ts
          (cfg.filter
            (fun e => decide (sys ∈ e.platform.map strToLower))) fs ∧
    ∀ e fs0, sys ∉ e.platform.map strToLower →
      processEntry sys ts fs0 e = fs0 := by
  have hskip : ∀ (e : LinkEntry) (fs0 : FS),
      sys ∉ e.platform.map strToLower →
        processEntry sys ts fs0 e = fs0 := by
    intro e fs0 hne
    unfold processEntry
    rw [if_neg hne]
  refine ⟨?_, hskip⟩
  induction cfg generalizing fs with
  | nil => rfl
  | cons e rest ih =>
    have hstep : ∀ (l : List LinkEntry) (fs0 : FS),
        link_configs sys ts (e :: l) fs0
          = link_configs sys ts l (processEntry sys ts fs0 e) :=
      fun l fs0 => rfl
    rw [List.filter_cons]
    by_cases hm : sys ∈ e.platform.map strToLower
    · rw [if_pos (by simpa using hm), hstep rest fs,
        hstep (rest.filter (fun e =>
          decide (sys ∈ e.platform.map strToLower))) fs]
      exact ih (processEntry sys ts fs e)
    · rw [if_neg (by simpa using hm), hstep rest fs, hskip e fs hm]
      exact ih fs

/-- Closed instance of `link_configs_platform_filter`: on a linux host a
darwin-only entry is filtered out and, on its own, mutates nothing. -/
theorem link_configs_platform_filter_witness :
    (link_configs "linux" "20240101-000000" [c8Entry] c8Fs
        = link_configs "linux" "20240101-000000"
            ([c8Entry].filter
              (fun e => decide ("linux" ∈ e.platform.map strToLower)))
            c8Fs) ∧
      ("linux" ∉ c8Entry.platform.map strToLower) ∧
      processEntry "linux" "20240101-000000" c8Fs c8Entry = c8Fs :=
  ⟨(link_configs_platform_filter "linux" "20240101-000000" [c8Entry]
      c8Fs).1,
   by decide,
   (link_configs_platform_filter "linux" "20240101-000000" [c8Entry]
      c8Fs).2 c8Entry c8Fs (by decide)⟩

/-- Claim C9: skip on missing source.  An entry whose source does not
exist under `CONFIG_DIR` causes no filesystem mutation (no symlink, no
backup, no append) — `processEntry` is the identity on the state — and
the run continues with the subsequent entries; nothing is raised (the
model is a total function). -/
theorem link_configs_skip_missing (sys ts : String) (fs : FS)
    (e : LinkEntry) (rest : List LinkEntry)
    (h : pathExists fs (CONFIG_DIR ++ e.src) = false) :
    processEntry sys ts fs e = fs ∧
      link_configs sys ts (e :: rest) fs
        = link_configs sys ts rest fs := by
  have h1 : processEntry sys ts fs e = fs := by
    unfold processEntry
    by_cases hm : sys ∈ e.platform.map strToLower
    · rw [if_pos hm, if_neg (by simp [h])]
    · rw [if_neg hm]
  refine ⟨h1, ?_⟩
  show link_configs sys ts rest (processEntry sys ts fs e) = _
  rw [h1]

/-- Closed instance of `link_configs_skip_missing`: with an empty
filesystem the first entry's source is missing, so it is skipped and the
run proceeds to the second entry. -/
theorem link_configs_skip_missing_witness :
    pathExists c9Fs (CONFIG_DIR ++ c9Entry.src) = false ∧
      (processEntry "linux" "20240101-000000" c9Fs c9Entry = c9Fs ∧
        link_configs "linux" "20240101-000000" (c9Entry :: [c9Entry2]) c9Fs
          = link_configs "linux" "20240101-000000" [c9Entry2] c9Fs) :=
  ⟨by decide,
    link_configs_skip_missing "linux" "20240101-000000" c9Fs c9Entry
      [c9Entry2] (by decide)⟩

end Tasks
